import Mathlib

/-
Verification development for the Geosite2ABP converter (src/geosite2abp.py).

The program is embedded shallowly: strings are lists of characters
(`Str := List Char`), the mutable fields of `GeositeProcessor`
(`visited`, `out_lines`, `rule_count`) become a state record that is
threaded explicitly, and the network is a finite association list from
URLs to fetched bodies.  The state additionally carries three ghost
fields that record observable events without influencing control flow:
`fetchLog` (every URL actually fetched, with the item name), `log`
(diagnostics printed by `_fetch_url`), and `exhausted` (set only when
the fuel parameter of the recursion model runs out; the theorems show
it never fires for sufficient fuel, so the fuel is an artifact of the
embedding, not of the program).
-/

set_option maxHeartbeats 1000000

abbrev Str := List Char

def str (s : String) : Str := s.data

/-- Python whitespace test (ASCII part), used to model str.strip and str.rstrip. -/
def isSpaceChar (c : Char) : Bool :=
  decide (c = ' ' ∨ c = '\t' ∨ c = '\n' ∨ c = '\r' ∨ c = '\x0b' ∨ c = '\x0c')

/-- Model of Python str.lstrip() with no argument. -/
def lstripWS (s : Str) : Str := s.dropWhile isSpaceChar

/-- Model of Python str.rstrip() with no argument. -/
def rstripWS (s : Str) : Str := (s.reverse.dropWhile isSpaceChar).reverse

/-- Model of Python str.strip() with no argument. -/
def stripWS (s : Str) : Str := rstripWS (lstripWS s)

/-- Model of Python str.lower() on one character (ASCII letters). -/
def lowerChar (c : Char) : Char :=
  if 'A' ≤ c ∧ c ≤ 'Z' then Char.ofNat (c.toNat + 32) else c

/-- Model of Python str.lower(). -/
def lowerStr (s : Str) : Str := s.map lowerChar

/-- Model of Python str.startswith: `hasPrefixL pat s` holds when `s` starts with `pat`. -/
def hasPrefixL : Str → Str → Bool
  | [], _ => true
  | _ :: _, [] => false
  | p :: ps, c :: cs => p == c && hasPrefixL ps cs

/-- Helper for `splitLines`; accumulates the current line in reverse. -/
def splitGo (cur : Str) : Str → List Str
  | [] => [cur.reverse]
  | '\r' :: '\n' :: rest => cur.reverse :: (if rest.isEmpty then [] else splitGo [] rest)
  | '\r' :: rest => cur.reverse :: (if rest.isEmpty then [] else splitGo [] rest)
  | '\n' :: rest => cur.reverse :: (if rest.isEmpty then [] else splitGo [] rest)
  | c :: rest => splitGo (c :: cur) rest

/-- Model of Python str.splitlines() restricted to the LF / CR / CRLF separators:
no trailing empty line for a trailing newline, and `[]` on the empty string. -/
def splitLines (s : Str) : List Str := if s.isEmpty then [] else splitGo [] s

/-
Regex translation, from `_convert_go_regex_to_js`.  Each compiled
pattern carries the lookbehind `(?<!\\)`, so a replacement happens at a
match position exactly when the character of the original string just
before that position is not a backslash.  `re.sub` scans left to right
and never rescans replaced text, which the functions below model by
carrying the previous character of the original string.
-/

/-- Scan of `RE_GO_ANCHOR_A.sub`: replace backslash-A by `^` when the
previous original character (`prev`) is not a backslash. -/
def goA (prev : Option Char) : Str → Str
  | '\\' :: 'A' :: rest =>
    if prev = some '\\' then '\\' :: goA (some '\\') ('A' :: rest)
    else '^' :: goA (some 'A') rest
  | c :: rest => c :: goA (some c) rest
  | [] => []

/-- Scan of `RE_GO_ANCHOR_Z.sub`: replace backslash-z / backslash-Z by `$` when
the previous original character is not a backslash. -/
def goZ (prev : Option Char) : Str → Str
  | '\\' :: c :: rest =>
    if (c = 'z' ∨ c = 'Z') ∧ prev ≠ some '\\' then '$' :: goZ (some c) rest
    else '\\' :: goZ (some '\\') (c :: rest)
  | c :: rest => c :: goZ (some c) rest
  | [] => []

/-- Scan of `RE_JS_SLASH.sub`: escape `/` when the previous original character
is not a backslash. -/
def goSlash (prev : Option Char) : Str → Str
  | '/' :: rest =>
    if prev = some '\\' then '/' :: goSlash (some '/') rest
    else '\\' :: '/' :: goSlash (some '/') rest
  | c :: rest => c :: goSlash (some c) rest
  | [] => []

/-- Model of `_convert_go_regex_to_js`: the three substitutions in program order. -/
def convertGoRegexToJs (p : Str) : Str := goSlash none (goZ none (goA none p))

/-
Spec-side translator for the refinement claim C4, written from the
claim's words: "replaces every unescaped occurrence (not preceded by a
backslash)".  It tracks only the one bit the claim talks about —
whether the preceding character is a backslash.
-/

/-- Spec reading of the anchor-A rule: every occurrence of backslash-A not
preceded by a backslash becomes `^`; everything else passes through. -/
def specGoA (prevBackslash : Bool) : Str → Str
  | '\\' :: 'A' :: rest =>
    if prevBackslash then '\\' :: specGoA true ('A' :: rest)
    else '^' :: specGoA false rest
  | c :: rest => c :: specGoA (c == '\\') rest
  | [] => []

/-- Spec reading of the anchor-z/Z rule. -/
def specGoZ (prevBackslash : Bool) : Str → Str
  | '\\' :: c :: rest =>
    if (c = 'z' ∨ c = 'Z') ∧ ¬prevBackslash then '$' :: specGoZ false rest
    else '\\' :: specGoZ true (c :: rest)
  | c :: rest => c :: specGoZ (c == '\\') rest
  | [] => []

/-- Spec reading of the slash rule. -/
def specGoSlash (prevBackslash : Bool) : Str → Str
  | '/' :: rest =>
    if prevBackslash then '/' :: specGoSlash false rest
    else '\\' :: '/' :: specGoSlash false rest
  | c :: rest => c :: specGoSlash (c == '\\') rest
  | [] => []

/-- Spec-side translator: anchors first (A, then z/Z), then slash escaping. -/
def specConvertGoRegexToJs (p : Str) : Str :=
  specGoSlash false (specGoZ false (specGoA false p))

/-
Domain normalization, from step 5 of `GeositeProcessor._process_line`:
  s = RE_PROTOCOL.sub('', s).split('/')[0].split(':')[0]
  s = RE_LEADING_WILDCARD.sub('', s).lstrip('.')
`RE_PROTOCOL` is `^[\w\+\-\.]+://` (anchored, so at most one removal; the
character class cannot contain `:`, so the match is the maximal run of
class characters followed by `://`).  `RE_LEADING_WILDCARD` is `^\*\.`.
-/

/-- Characters of the class `[\w\+\-\.]` (ASCII reading of `\w`). -/
def isSchemeChar (c : Char) : Bool :=
  c.isAlphanum || c == '_' || c == '+' || c == '-' || c == '.'

/-- Model of `RE_PROTOCOL.sub('', s)`. -/
def stripProtocol (s : Str) : Str :=
  let run := s.takeWhile isSchemeChar
  if run ≠ [] ∧ hasPrefixL (str "://") (s.drop run.length) then s.drop (run.length + 3) else s

/-- The whole normalization pipeline of step 5 (both assignment lines). -/
def normalizeDomain (s : Str) : Str :=
  let s1 := stripProtocol s
  let s2 := s1.takeWhile (fun c => decide (c ≠ '/'))
  let s3 := s2.takeWhile (fun c => decide (c ≠ ':'))
  let s4 := if hasPrefixL (str "*.") s3 then s3.drop 2 else s3
  s4.dropWhile (fun c => c == '.')

/-
URL templates and the known curated set, from the module constant `KNOWN`
and `GeositeProcessor.__init__`.  Both Python templates are literal
strings with a single `{it}` hole, modelled as a prefix/suffix pair.
-/

structure UrlTemplate where
  pre : Str
  post : Str
deriving DecidableEq

/-- Template chosen when the root item is in `KNOWN`. -/
def curatedTemplate : UrlTemplate :=
  ⟨str "https://raw.githubusercontent.com/Loyalsoldier/v2ray-rules-dat/release/", str ".txt"⟩

/-- Template chosen when the root item is not in `KNOWN`. -/
def communityTemplate : UrlTemplate :=
  ⟨str "https://raw.githubusercontent.com/v2fly/domain-list-community/master/data/", []⟩

/-- Model of `self.template.format(it=it)`. -/
def urlOf (t : UrlTemplate) (it : Str) : Str := t.pre ++ it ++ t.post

/-- The module-level `KNOWN` set of curated rule-set names. -/
def KNOWN : List Str :=
  [str "gfw", str "china-list", str "apple-cn", str "google-cn",
   str "win-spy", str "win-update", str "win-extra"]

/-- The template selection performed once in `GeositeProcessor.__init__`. -/
def templateFor (root : Str) : UrlTemplate :=
  if root ∈ KNOWN then curatedTemplate else communityTemplate

/-
Processor state and the fetch environment.  `Env` is the network: an
association list from URL to body; a URL absent from it behaves like a
`URLError`/timeout (logged, empty string returned by `_fetch_url`),
while a URL mapped to `[]` is a successful fetch of an empty body.
-/

abbrev Env := List (Str × Str)

def lookupEnv : Env → Str → Option Str
  | [], _ => none
  | (k, v) :: rest, u => if k = u then some v else lookupEnv rest u

structure PState where
  visited : List Str
  out_lines : List Str
  rule_count : Nat
  fetchLog : List (Str × Str)
  log : List Str
  exhausted : Bool
deriving DecidableEq

/-- The state built by `GeositeProcessor.__init__` (ghost fields empty). -/
def initState : PState := ⟨[], [], 0, [], [], false⟩

/-- The diagnostic printed by `_fetch_url` on URLError / timeout. -/
def fetchFailMsg (url : Str) : Str := str "[!] Failed to fetch " ++ url

/-- Model of `_fetch_url`: returns the body, or logs and returns empty. -/
def fetchUrl (env : Env) (url : Str) (st : PState) : Str × PState :=
  match lookupEnv env url with
  | some c => (c, st)
  | none => ([], { st with log := st.log ++ [fetchFailMsg url] })

/-- Append one output line (used by comment / blank branches). -/
def emitLine (l : Str) (st : PState) : PState :=
  { st with out_lines := st.out_lines ++ [l] }

/-- Append one output line and count it as a rule. -/
def emitRule (l : Str) (st : PState) : PState :=
  { st with out_lines := st.out_lines ++ [l], rule_count := st.rule_count + 1 }

/-- Model of `s.split(":", 1)[1]` for a string that contains a colon. -/
def afterColon (s : Str) : Str := (s.dropWhile (fun c => decide (c ≠ ':'))).drop 1

/-- Step 3 of `_process_line`: `RE_INLINE_COMMENT.split(s, 1)[0].rstrip()`,
where `RE_INLINE_COMMENT` is `[@#]` (the prefix before the first `@` or `#`). -/
def inlineStrip (s : Str) : Str :=
  rstripWS (s.takeWhile (fun c => decide (c ≠ '@' ∧ c ≠ '#')))

/-- Model of `GeositeProcessor._process_line`.  The `include:` branch calls
the resolver through the parameter `recur`, which `fetchAndProcess` ties
to itself at one fuel level down. -/
def processLineF (recur : Str → PState → PState) (st : PState) (raw : Str) : PState :=
  let s0 := stripWS raw
  if s0 = [] then emitLine [] st
  else if hasPrefixL (str "#") s0 then emitLine ('!' :: s0.drop 1) st
  else if hasPrefixL (str "//") s0 then emitLine ('!' :: s0.drop 2) st
  else if hasPrefixL (str "!") s0 then emitLine s0 st
  else
    let s1 := inlineStrip s0
    if s1 = [] then st
    else
      let low := lowerStr s1
      if hasPrefixL (str "include:") low then
        let inc := stripWS (afterColon s1)
        if inc = [] then st else recur inc st
      else if hasPrefixL (str "regexp:") low then
        let pat := stripWS (afterColon s1)
        if pat = [] then st
        else emitRule ('/' :: (convertGoRegexToJs pat ++ ['/'])) st
      else
        let isFull := hasPrefixL (str "full:") low
        let s2 := if isFull then stripWS (afterColon s1) else s1
        if isFull ∧ s2 = [] then st
        else
          let d := normalizeDomain s2
          if d = [] then st
          else emitRule (if isFull then '|' :: d else '|' :: '|' :: d) st

/-- The separator condition `self.out_lines and self.out_lines[-1] != ""`. -/
def needSep (out : List Str) : Bool := !out.isEmpty && !(out.getLast? == some [])

/-- Model of `GeositeProcessor._fetch_and_process`.  The `fuel` parameter
only bounds the include-nesting depth so the definition is total; the
termination theorems show a sufficient bound exists, matching the
fuel-free Python recursion. -/
def fetchAndProcess (env : Env) (tmpl : UrlTemplate) : Nat → Str → PState → PState
  | 0, _, st => { st with exhausted := true }
  | f + 1, it, st =>
    if it ∈ st.visited then st
    else
      let st1 := { st with visited := it :: st.visited }
      let st2 := if needSep st1.out_lines then emitLine [] st1 else st1
      let url := urlOf tmpl it
      let st3 := { st2 with fetchLog := st2.fetchLog ++ [(it, url)] }
      let cp := fetchUrl env url st3
      if cp.1 = [] then cp.2
      else (splitLines cp.1).foldl (processLineF (fetchAndProcess env tmpl f)) cp.2

/-- Model of `GeositeProcessor.process` for a processor built on `root`:
resolve the root item starting from the fresh `__init__` state.  The fuel
`env.length + 1` is enough for any include graph over `env` (proved below). -/
def processRoot (env : Env) (root : Str) : PState :=
  fetchAndProcess env (templateFor root) (env.length + 1) root initState

/-- Ghost measure: how many environment entries have a URL not yet covered by
the visited set (under template `tmpl`). -/
def countNew (env : Env) (tmpl : UrlTemplate) (visited : List Str) : Nat :=
  match env with
  | [] => 0
  | e :: rest =>
    (if e.1 ∈ visited.map (urlOf tmpl) then 0 else 1) + countNew rest tmpl visited

/-- Environment whose root content has an include of a name that is absent
from the network (a fetch error). -/
def failEnv : Env :=
  [(urlOf communityTemplate (str "root"), str "example.com\ninclude:missing\nfoo.com")]

/-- Environment whose root content has an include of a name whose fetch
succeeds with an empty body. -/
def emptyBodyEnv : Env :=
  [(urlOf communityTemplate (str "root2"), str "example.com\ninclude:empty\nfoo.com"),
   (urlOf communityTemplate (str "empty"), [])]

/-- Include graph with a cycle: A includes B, B includes A. -/
def cycleEnv : Env :=
  [(urlOf communityTemplate (str "A"), str "include:B"),
   (urlOf communityTemplate (str "B"), str "include:A")]

/-- Include graph where A references B twice, directly and through C. -/
def dedupEnv : Env :=
  [(urlOf communityTemplate (str "A"), str "include:B\ninclude:C"),
   (urlOf communityTemplate (str "B"), str "b.example.com"),
   (urlOf communityTemplate (str "C"), str "include:B")]

/-- A line counts as an effective match rule when it is non-blank and does not
start with the ABP comment marker `!`. -/
def isRuleLine (l : Str) : Bool := !l.isEmpty && !(l.head? == some '!')

/-- Environment where a non-curated root includes a curated name. -/
def mixEnv : Env :=
  [(urlOf communityTemplate (str "myroot"), str "include:gfw"),
   (urlOf communityTemplate (str "gfw"), str "g.example.com")]

/-
Generic helper lemmas.
-/

theorem beq_decide (c d : Char) : (c == d) = decide (c = d) := by
  by_cases h : c = d <;> simp [h]

/-
Claim C4: the translator replaces unescaped anchors and slashes.
The code-side scans (`goA`, `goZ`, `goSlash`) are proved pointwise equal
to the spec-side ones, which track only the "preceded by a backslash" bit.
-/

theorem goA_eq_spec : ∀ (s : Str) (prev : Option Char),
    goA prev s = specGoA (decide (prev = some '\\')) s := by
  intro s prev
  induction prev, s using goA.induct
  all_goals simp_all [goA, specGoA, beq_decide]

theorem goZ_eq_spec : ∀ (s : Str) (prev : Option Char),
    goZ prev s = specGoZ (decide (prev = some '\\')) s := by
  intro s prev
  induction prev, s using goZ.induct with
  | case1 prev c rest h ih =>
    rw [goZ, specGoZ, if_pos h, if_pos ⟨h.1, by simpa using h.2⟩, ih]
    rcases h.1 with h1 | h1 <;> simp [h1]
  | case2 prev c rest h ih =>
    rw [goZ, specGoZ, if_neg h, if_neg (by simpa using h), ih]
    simp
  | case3 prev c rest h ih => simp_all [goZ, specGoZ, beq_decide]
  | case4 prev => rfl

theorem goSlash_eq_spec : ∀ (s : Str) (prev : Option Char),
    goSlash prev s = specGoSlash (decide (prev = some '\\')) s := by
  intro s prev
  induction prev, s using goSlash.induct
  all_goals simp_all [goSlash, specGoSlash, beq_decide]

/-- Claim C4: for every pattern string, `_convert_go_regex_to_js` replaces
every unescaped (not preceded by a backslash) occurrence of backslash-A by
`^` and of backslash-z / backslash-Z by `$`, then escapes every unescaped
`/`, leaving escaped occurrences and all other characters untouched — it
agrees everywhere with the rule-by-rule translator spelled out by the spec. -/
theorem claim4_regex_translation (p : Str) :
    convertGoRegexToJs p = specConvertGoRegexToJs p := by
  simp [convertGoRegexToJs, specConvertGoRegexToJs, goA_eq_spec, goZ_eq_spec, goSlash_eq_spec]

theorem dropWhile_idem (p : Char → Bool) (l : Str) :
    (l.dropWhile p).dropWhile p = l.dropWhile p := by
  induction l with
  | nil => rfl
  | cons c r ih =>
    by_cases h : p c = true
    · simp [List.dropWhile_cons, h, ih]
    · simp [List.dropWhile_cons, h]

theorem hasPrefixL_cons (p : Char) (ps s : Str) :
    hasPrefixL (p :: ps) s = true ↔ ∃ t, s = p :: t ∧ hasPrefixL ps t = true := by
  cases s with
  | nil => simp [hasPrefixL]
  | cons c cs =>
    simp only [hasPrefixL, Bool.and_eq_true, beq_iff_eq]
    constructor
    · rintro ⟨rfl, h⟩
      exact ⟨cs, rfl, h⟩
    · rintro ⟨t, ht, h⟩
      cases ht
      exact ⟨rfl, h⟩

theorem stripProtocol_eq_self (t : Str) (h : ':' ∉ t) : stripProtocol t = t := by
  rw [stripProtocol]
  rw [if_neg]
  intro hc
  rcases (hasPrefixL_cons _ _ _).mp hc.2 with ⟨u, hu, _⟩
  exact h ((List.drop_sublist _ _).subset (hu ▸ List.mem_cons_self ':' u))

theorem norm_mem (s : Str) : ∀ c ∈ normalizeDomain s, c ≠ '/' ∧ c ≠ ':' := by
  intro c hc
  simp only [normalizeDomain] at hc
  set t3 := ((stripProtocol s).takeWhile (fun c => decide (c ≠ '/'))).takeWhile
    (fun c => decide (c ≠ ':')) with ht3
  have h4 : c ∈ (if hasPrefixL (str "*.") t3 = true then List.drop 2 t3 else t3) :=
    (List.dropWhile_sublist _).subset hc
  have h3 : c ∈ t3 := by
    by_cases hw : hasPrefixL (str "*.") t3 = true
    · rw [if_pos hw] at h4
      exact (List.drop_sublist _ _).subset h4
    · rw [if_neg hw] at h4
      exact h4
  rw [ht3] at h3
  have hcol := List.mem_takeWhile_imp h3
  have h2 : c ∈ (stripProtocol s).takeWhile (fun c => decide (c ≠ '/')) :=
    (List.takeWhile_sublist _).subset h3
  have hsl := List.mem_takeWhile_imp h2
  exact ⟨of_decide_eq_true hsl, of_decide_eq_true hcol⟩

theorem normalizeDomain_fix (t : Str) (hslash : '/' ∉ t) (hcolon : ':' ∉ t)
    (hw : hasPrefixL (str "*.") t = false)
    (hd : List.dropWhile (fun c => c == '.') t = t) :
    normalizeDomain t = t := by
  have h1 : List.takeWhile (fun c => decide (c ≠ '/')) t = t :=
    List.takeWhile_eq_self_iff.mpr
      (fun c hc => decide_eq_true (fun he => hslash (he ▸ hc)))
  have h2 : List.takeWhile (fun c => decide (c ≠ ':')) t = t :=
    List.takeWhile_eq_self_iff.mpr
      (fun c hc => decide_eq_true (fun he => hcolon (he ▸ hc)))
  simp only [normalizeDomain]
  rw [stripProtocol_eq_self _ hcolon, h1, h2, if_neg (by simp [hw])]
  exact hd

/-- Claim C5 counterexample: domain normalization is not idempotent as the
claim states it.  Normalizing the stacked-wildcard input once yields a string
still beginning with the wildcard marker, which a second application changes
again, so normalize applied to its own (already-normalized) output is not the
identity. -/
theorem claim5_cex :
    normalizeDomain (normalizeDomain (str "*.*.example.com")) ≠
      normalizeDomain (str "*.*.example.com") := by decide

/-- Claim C5 (amended): domain normalization is idempotent except when its
result itself still begins with the wildcard marker: whenever the normal
form of a string does not start with the two characters star-dot,
normalizing it a second time returns it unchanged.  In particular the
spec example holds: normalizing star-dot-example.com gives example.com,
which normalizes to itself. -/
theorem claim5_norm_idempotent (s : Str)
    (h : hasPrefixL (str "*.") (normalizeDomain s) = false) :
    normalizeDomain (normalizeDomain s) = normalizeDomain s := by
  have hmem := norm_mem s
  have hslash : '/' ∉ normalizeDomain s := fun hc => (hmem _ hc).1 rfl
  have hcolon : ':' ∉ normalizeDomain s := fun hc => (hmem _ hc).2 rfl
  have hd : List.dropWhile (fun c => c == '.') (normalizeDomain s) = normalizeDomain s := by
    have hu : normalizeDomain s = List.dropWhile (fun c => c == '.')
        (if hasPrefixL (str "*.")
            (((stripProtocol s).takeWhile (fun c => decide (c ≠ '/'))).takeWhile
              (fun c => decide (c ≠ ':'))) = true
          then List.drop 2 (((stripProtocol s).takeWhile (fun c => decide (c ≠ '/'))).takeWhile
              (fun c => decide (c ≠ ':')))
          else ((stripProtocol s).takeWhile (fun c => decide (c ≠ '/'))).takeWhile
              (fun c => decide (c ≠ ':'))) := rfl
    rw [hu, dropWhile_idem]
  exact normalizeDomain_fix _ hslash hcolon h hd

/-- Claim C5 witness: the spec's own example instantiates the amended claim. -/
theorem claim5_witness :
    hasPrefixL (str "*.") (normalizeDomain (str "*.example.com")) = false ∧
      normalizeDomain (normalizeDomain (str "*.example.com")) =
        normalizeDomain (str "*.example.com") :=
  ⟨by decide, claim5_norm_idempotent (str "*.example.com") (by decide)⟩

/-- Claim C6: the line classifier maps the spec's literal example lines as
stated, for every state and resolver: the hash comment line yields the
bang comment line without a rule-count change; a bare domain yields the
double-bar rule and adds one to the rule count; a full-prefixed domain
yields the single-bar exact rule and adds one; a blank line yields a blank
output line with the count unchanged. -/
theorem claim6_line_examples (recur : Str → PState → PState) (st : PState) :
    processLineF recur st (str "# hello") =
        { st with out_lines := st.out_lines ++ [str "! hello"] } ∧
      processLineF recur st (str "example.com") =
        { st with out_lines := st.out_lines ++ [str "||example.com"],
                  rule_count := st.rule_count + 1 } ∧
      processLineF recur st (str "full:example.com") =
        { st with out_lines := st.out_lines ++ [str "|example.com"],
                  rule_count := st.rule_count + 1 } ∧
      processLineF recur st (str "") =
        { st with out_lines := st.out_lines ++ [[]] } :=
  ⟨rfl, rfl, rfl, rfl⟩

theorem hasPrefixL_append (p : Str) : ∀ (a b : Str),
    hasPrefixL p a = true → hasPrefixL p (a ++ b) = true := by
  induction p with
  | nil => intro a b _; rfl
  | cons hd tl ih =>
    intro a b h
    rcases (hasPrefixL_cons _ _ _).mp h with ⟨t, rfl, h'⟩
    exact (hasPrefixL_cons _ _ _).mpr ⟨t ++ b, rfl, ih t b h'⟩

theorem rstrip_decomp (x : Str) : ∃ r, x = rstripWS x ++ r := by
  refine ⟨(x.reverse.takeWhile isSpaceChar).reverse, ?_⟩
  rw [rstripWS, ← List.reverse_append, List.takeWhile_append_dropWhile, List.reverse_reverse]

theorem rstrip_sublist (x : Str) : List.Sublist (rstripWS x) x := by
  have h : List.Sublist (x.reverse.dropWhile isSpaceChar) x.reverse :=
    List.dropWhile_sublist isSpaceChar
  have h2 := h.reverse
  rwa [List.reverse_reverse] at h2

theorem rstrip_idem (x : Str) : rstripWS (rstripWS x) = rstripWS x := by
  rw [rstripWS, rstripWS, List.reverse_reverse, dropWhile_idem]

theorem strip_head_not_space (s : Str) (c : Char) (r : Str)
    (hTrim : stripWS s = s) (hs : s = c :: r) : isSpaceChar c = false := by
  by_contra h
  have hb : isSpaceChar c = true := by
    cases hx : isSpaceChar c
    · exact absurd hx h
    · rfl
  have hlen : s.length ≤ r.length := by
    have h1 : lstripWS s = lstripWS r := by
      rw [hs, lstripWS, lstripWS, List.dropWhile_cons, if_pos hb]
    have h2 : (stripWS s).length ≤ (lstripWS s).length :=
      (rstrip_sublist (lstripWS s)).length_le
    have h3 : (lstripWS r).length ≤ r.length :=
      (List.dropWhile_sublist isSpaceChar).length_le
    rw [hTrim] at h2
    rw [h1] at h2
    exact le_trans h2 h3
  rw [hs] at hlen
  simp at hlen

/-- Claim C2 counterexample: the code splits at the first `@` or `#` even
when it is preceded by a backslash.  On the input with an escaped at-sign
the classifier emits the rule truncated at the backslash, not the
full-line rule the claim predicts for an escaped marker. -/
theorem claim2_cex :
    (processLineF (fetchAndProcess [] communityTemplate 0) initState
        (str "exam\\@ple.com")).out_lines = [str "||exam\\"] ∧
      str "||exam\\" ≠ str "||exam\\@ple.com" := ⟨by decide, by decide⟩

/-- Claim C2 (amended): for every non-blank, non-full-line-comment input
line, the classifier strips the inline comment by splitting at the first
`@` or `#` regardless of any preceding backslash, discards everything from
the marker onward, trims trailing whitespace, and silently discards the
line (state unchanged) if nothing remains; otherwise its behaviour is
exactly that of classifying the stripped remainder. -/
theorem claim2_inline_comment (recur : Str → PState → PState) (st : PState) (s : Str)
    (hTrim : stripWS s = s) (hne : s ≠ [])
    (h1 : hasPrefixL (str "#") s = false) (h2 : hasPrefixL (str "//") s = false)
    (h3 : hasPrefixL (str "!") s = false) :
    (inlineStrip s = [] → processLineF recur st s = st) ∧
      (inlineStrip s ≠ [] →
        processLineF recur st s = processLineF recur st (inlineStrip s)) := by
  constructor
  · intro hempty
    simp only [processLineF, hTrim, h1, h2, h3, hempty]
    rw [if_neg hne]
    simp
  · intro hts
    -- facts about t := inlineStrip s
    have hsubT : List.Sublist (inlineStrip s)
        (s.takeWhile (fun c => decide (c ≠ '@' ∧ c ≠ '#'))) := rstrip_sublist _
    have hmemT : ∀ c ∈ inlineStrip s, decide (c ≠ '@' ∧ c ≠ '#') = true := by
      intro c hc
      have hx := List.mem_takeWhile_imp (hsubT.subset hc)
      exact hx
    have htakeT : (inlineStrip s).takeWhile (fun c => decide (c ≠ '@' ∧ c ≠ '#')) =
        inlineStrip s := List.takeWhile_eq_self_iff.mpr (fun c hc => hmemT c hc)
    have hpreT : ∃ r, s = inlineStrip s ++ r := by
      obtain ⟨r1, hr1⟩ := rstrip_decomp (s.takeWhile (fun c => decide (c ≠ '@' ∧ c ≠ '#')))
      refine ⟨r1 ++ s.dropWhile (fun c => decide (c ≠ '@' ∧ c ≠ '#')), ?_⟩
      conv_lhs => rw [← List.takeWhile_append_dropWhile (fun c => decide (c ≠ '@' ∧ c ≠ '#')) s]
      rw [hr1, inlineStrip, List.append_assoc]
    have hheadT : ∀ c r, inlineStrip s = c :: r → isSpaceChar c = false := by
      intro c r hcr
      obtain ⟨rr, hrr⟩ := hpreT
      exact strip_head_not_space s c (r ++ rr) hTrim (by rw [hrr, hcr]; rfl)
    have hlstripT : lstripWS (inlineStrip s) = inlineStrip s := by
      cases hx : inlineStrip s with
      | nil => rfl
      | cons c r => rw [lstripWS, List.dropWhile_cons, if_neg (by simp [hheadT c r hx])]
    have hrstripT : rstripWS (inlineStrip s) = inlineStrip s := by
      rw [inlineStrip, rstrip_idem]
    have hstripT : stripWS (inlineStrip s) = inlineStrip s := by
      rw [stripWS, hlstripT, hrstripT]
    have hinlineT : inlineStrip (inlineStrip s) = inlineStrip s := by
      rw [inlineStrip, htakeT, hrstripT]
    have hp1 : hasPrefixL (str "#") (inlineStrip s) = false := by
      cases hx : hasPrefixL (str "#") (inlineStrip s)
      · rfl
      · obtain ⟨rr, hrr⟩ := hpreT
        rw [hrr, hasPrefixL_append _ _ _ hx] at h1
        exact h1
    have hp2 : hasPrefixL (str "//") (inlineStrip s) = false := by
      cases hx : hasPrefixL (str "//") (inlineStrip s)
      · rfl
      · obtain ⟨rr, hrr⟩ := hpreT
        rw [hrr, hasPrefixL_append _ _ _ hx] at h2
        exact h2
    have hp3 : hasPrefixL (str "!") (inlineStrip s) = false := by
      cases hx : hasPrefixL (str "!") (inlineStrip s)
      · rfl
      · obtain ⟨rr, hrr⟩ := hpreT
        rw [hrr, hasPrefixL_append _ _ _ hx] at h3
        exact h3
    simp only [processLineF, hTrim, hstripT, hinlineT, h1, h2, h3, hp1, hp2, hp3]
    simp only [if_neg hne, if_neg hts, Bool.false_eq_true, if_false]

theorem toNat_ofNat_valid (n : Nat) (h : n.isValidChar) : (Char.ofNat n).toNat = n := by
  rw [Char.ofNat, dif_pos h]
  rfl

theorem lower_eq_colon (c : Char) (h : lowerChar c = ':') : c = ':' := by
  rw [lowerChar] at h
  by_cases hc : 'A' ≤ c ∧ c ≤ 'Z'
  · rw [if_pos hc] at h
    exfalso
    have h58 := congrArg Char.toNat h
    have hv : (c.toNat + 32).isValidChar := by
      have h2 : c.toNat ≤ 90 := hc.2
      left
      omega
    rw [toNat_ofNat_valid _ hv] at h58
    have h1 : 65 ≤ c.toNat := hc.1
    have : (':').toNat = 58 := rfl
    omega
  · rw [if_neg hc] at h
    exact h

theorem afterColon_of_lower : ∀ (kw : Str), ∀ (s : Str), ':' ∉ kw →
    hasPrefixL (kw ++ [':']) (lowerStr s) = true →
    afterColon s = s.drop (kw.length + 1) := by
  intro kw
  induction kw with
  | nil =>
    intro s _ h
    rcases (hasPrefixL_cons _ _ _).mp h with ⟨t, ht, _⟩
    cases s with
    | nil => simp [lowerStr] at ht
    | cons c s' =>
      simp only [lowerStr, List.map_cons, List.cons.injEq] at ht
      have hc : c = ':' := lower_eq_colon c ht.1
      subst hc
      rw [afterColon, List.dropWhile_cons, if_neg (by simp)]
      rfl
  | cons k kw' ih =>
    intro s hk h
    rcases (hasPrefixL_cons _ _ _).mp h with ⟨t, ht, h'⟩
    cases s with
    | nil => simp [lowerStr] at ht
    | cons c s' =>
      simp only [lowerStr, List.map_cons, List.cons.injEq] at ht
      have hck : c ≠ ':' := by
        intro hceq
        apply hk
        rw [← ht.1, hceq]
        have : lowerChar ':' = ':' := by decide
        rw [this]
        exact List.mem_cons_self _ _
      rw [afterColon, List.dropWhile_cons, if_pos (by simp [hck])]
      have h2 : afterColon s' = s'.drop (kw'.length + 1) := by
        apply ih s' (fun hm => hk (List.mem_cons_of_mem _ hm))
        rw [← ht.2] at h'
        exact h'
      rw [afterColon] at h2
      rw [h2]
      rfl

theorem head_of_lower (s : Str) (k : Char) (ks : Str)
    (h : hasPrefixL (k :: ks) (lowerStr s) = true) :
    ∃ c t, s = c :: t ∧ lowerChar c = k := by
  rcases (hasPrefixL_cons _ _ _).mp h with ⟨t, ht, _⟩
  cases s with
  | nil => simp [lowerStr] at ht
  | cons c s' =>
    simp only [lowerStr, List.map_cons, List.cons.injEq] at ht
    exact ⟨c, s', rfl, ht.1⟩

theorem head_mismatch (s : Str) (c : Char) (t : Str) (p : Char) (ps : Str)
    (hs : s = c :: t) (hne : p ≠ c) : hasPrefixL (p :: ps) s = false := by
  subst hs
  cases hx : hasPrefixL (p :: ps) (c :: t) with
  | false => rfl
  | true =>
    rcases (hasPrefixL_cons _ _ _).mp hx with ⟨u, hu, _⟩
    exact absurd (List.cons.injEq .. ▸ hu).1.symm hne

/-- Claim C7: directive keywords are recognized case-insensitively (the
branch taken depends only on the lower-cased prefix), while the value
taken after the first colon retains its original case exactly — it is
only whitespace-trimmed (`stripWS`), never lower-cased: the emitted value
is computed from `s.drop k`, the original-case text after the keyword. -/
theorem claim7_directive_case (recur : Str → PState → PState) (st : PState) (s : Str)
    (hTrim : stripWS s = s) (hne : s ≠ []) (hmarks : inlineStrip s = s) :
    (hasPrefixL (str "include:") (lowerStr s) = true →
      processLineF recur st s =
        (if stripWS (s.drop 8) = [] then st else recur (stripWS (s.drop 8)) st)) ∧
      (hasPrefixL (str "regexp:") (lowerStr s) = true →
        processLineF recur st s =
          (if stripWS (s.drop 7) = [] then st
            else emitRule ('/' :: (convertGoRegexToJs (stripWS (s.drop 7)) ++ ['/'])) st)) ∧
      (hasPrefixL (str "full:") (lowerStr s) = true →
        processLineF recur st s =
          (if stripWS (s.drop 5) = [] then st
            else if normalizeDomain (stripWS (s.drop 5)) = [] then st
            else emitRule ('|' :: normalizeDomain (stripWS (s.drop 5))) st)) := by
  refine ⟨?_, ?_, ?_⟩
  · intro hInc
    obtain ⟨c, t, hs, hlc⟩ := head_of_lower _ _ _ hInc
    have hpHash : hasPrefixL (str "#") s = false :=
      head_mismatch s c t '#' _ hs (fun h => by rw [← h] at hlc; exact absurd hlc (by decide))
    have hpSlash : hasPrefixL (str "//") s = false :=
      head_mismatch s c t '/' _ hs (fun h => by rw [← h] at hlc; exact absurd hlc (by decide))
    have hpBang : hasPrefixL (str "!") s = false :=
      head_mismatch s c t '!' _ hs (fun h => by rw [← h] at hlc; exact absurd hlc (by decide))
    have hAC : afterColon s = s.drop 8 := by
      have h := afterColon_of_lower (str "include") s (by decide) (by exact hInc)
      simpa using h
    simp only [processLineF, hTrim, hmarks, hpHash, hpSlash, hpBang, hInc, hAC,
      Bool.false_eq_true, if_false, if_true]
    simp only [if_neg hne]
  · intro hReg
    obtain ⟨c, t, hs, hlc⟩ := head_of_lower _ _ _ hReg
    have hpHash : hasPrefixL (str "#") s = false :=
      head_mismatch s c t '#' _ hs (fun h => by rw [← h] at hlc; exact absurd hlc (by decide))
    have hpSlash : hasPrefixL (str "//") s = false :=
      head_mismatch s c t '/' _ hs (fun h => by rw [← h] at hlc; exact absurd hlc (by decide))
    have hpBang : hasPrefixL (str "!") s = false :=
      head_mismatch s c t '!' _ hs (fun h => by rw [← h] at hlc; exact absurd hlc (by decide))
    have hInc : hasPrefixL (str "include:") (lowerStr s) = false :=
      head_mismatch (lowerStr s) (lowerChar c) (lowerStr t) 'i' _
        (by rw [hs]; rfl) (by rw [hlc]; decide)
    have hAC : afterColon s = s.drop 7 := by
      have h := afterColon_of_lower (str "regexp") s (by decide) (by exact hReg)
      simpa using h
    simp only [processLineF, hTrim, hmarks, hpHash, hpSlash, hpBang, hInc, hReg, hAC,
      Bool.false_eq_true, if_false, if_true]
    simp only [if_neg hne]
  · intro hFull
    obtain ⟨c, t, hs, hlc⟩ := head_of_lower _ _ _ hFull
    have hpHash : hasPrefixL (str "#") s = false :=
      head_mismatch s c t '#' _ hs (fun h => by rw [← h] at hlc; exact absurd hlc (by decide))
    have hpSlash : hasPrefixL (str "//") s = false :=
      head_mismatch s c t '/' _ hs (fun h => by rw [← h] at hlc; exact absurd hlc (by decide))
    have hpBang : hasPrefixL (str "!") s = false :=
      head_mismatch s c t '!' _ hs (fun h => by rw [← h] at hlc; exact absurd hlc (by decide))
    have hInc : hasPrefixL (str "include:") (lowerStr s) = false :=
      head_mismatch (lowerStr s) (lowerChar c) (lowerStr t) 'i' _
        (by rw [hs]; rfl) (by rw [hlc]; decide)
    have hReg : hasPrefixL (str "regexp:") (lowerStr s) = false :=
      head_mismatch (lowerStr s) (lowerChar c) (lowerStr t) 'r' _
        (by rw [hs]; rfl) (by rw [hlc]; decide)
    have hAC : afterColon s = s.drop 5 := by
      have h := afterColon_of_lower (str "full") s (by decide) (by exact hFull)
      simpa using h
    simp only [processLineF, hTrim, hmarks, hpHash, hpSlash, hpBang, hInc, hReg, hFull, hAC,
      Bool.false_eq_true, if_false, if_true]
    simp only [if_neg hne]
    by_cases hv : stripWS (s.drop 5) = []
    · simp [hv]
    · simp only [if_neg hv]
      simp [hv]

theorem foldl_pres {α β : Type} (P : α → Prop) (f : α → β → α)
    (h : ∀ a b, P a → P (f a b)) : ∀ (l : List β) (a : α), P a → P (l.foldl f a) := by
  intro l
  induction l with
  | nil => intro a ha; exact ha
  | cons x xs ih => intro a ha; exact ih (f a x) (h a x ha)

theorem processLineF_pres (recur : Str → PState → PState) (P : PState → Prop)
    (hrec : ∀ it st, P st → P (recur it st))
    (hcomment : ∀ st l, l = [] ∨ l.head? = some '!' → P st → P (emitLine l st))
    (hrule : ∀ st l, l ≠ [] ∧ l.head? ≠ some '!' → P st → P (emitRule l st)) :
    ∀ st raw, P st → P (processLineF recur st raw) := by
  intro st raw hP
  rw [processLineF]
  dsimp only
  generalize stripWS raw = s0
  generalize inlineStrip s0 = s1
  generalize lowerStr s1 = low
  generalize stripWS (afterColon s1) = v
  generalize hgen : (if hasPrefixL (str "full:") low = true then v else s1) = s2
  generalize normalizeDomain s2 = d
  split_ifs with h1 h2 h3 h4 h5 h6 h7 h8 h9 h10 h11 h12
  all_goals try exact hP
  all_goals try exact hcomment st [] (Or.inl rfl) hP
  all_goals try exact hcomment st _ (Or.inr rfl) hP
  all_goals try exact hrec _ _ hP
  all_goals try exact hrule st _ ⟨by simp, by simp⟩ hP
  · rcases (hasPrefixL_cons _ _ _).mp h4 with ⟨t, ht, _⟩
    exact hcomment st _ (Or.inr (by rw [ht]; rfl)) hP

theorem fap_pres (env : Env) (tmpl : UrlTemplate) (P : PState → Prop)
    (hcomment : ∀ st l, l = [] ∨ l.head? = some '!' → P st → P (emitLine l st))
    (hrule : ∀ st l, l ≠ [] ∧ l.head? ≠ some '!' → P st → P (emitRule l st))
    (hstep : ∀ st it b, it ∉ st.visited → P st →
      P { st with visited := it :: st.visited,
                  out_lines := if b = true then st.out_lines ++ [[]] else st.out_lines,
                  fetchLog := st.fetchLog ++ [(it, urlOf tmpl it)] })
    (hlog : ∀ st url, P st → P { st with log := st.log ++ [fetchFailMsg url] })
    (hexh : ∀ st, P st → P { st with exhausted := true }) :
    ∀ (f : Nat) (it : Str) (st : PState), P st → P (fetchAndProcess env tmpl f it st) := by
  intro f
  induction f with
  | zero => intro it st h; exact hexh st h
  | succ f ih =>
    intro it st h
    simp only [fetchAndProcess]
    dsimp only
    by_cases hv : it ∈ st.visited
    · rw [if_pos hv]
      exact h
    · rw [if_neg hv]
      by_cases hb : needSep st.out_lines = true
      · simp only [hb, if_true, emitLine]
        rcases hl : lookupEnv env (urlOf tmpl it) with _ | c
        · simp only [fetchUrl, hl]
          exact hlog _ _ (hstep st it true hv h)
        · simp only [fetchUrl, hl]
          by_cases hc : c = []
          · rw [if_pos hc]
            exact hstep st it true hv h
          · rw [if_neg hc]
            exact foldl_pres P _
              (fun a b ha => processLineF_pres (fetchAndProcess env tmpl f) P ih hcomment hrule a b ha)
              (splitLines c) _ (hstep st it true hv h)
      · simp only [hb, if_false]
        rcases hl : lookupEnv env (urlOf tmpl it) with _ | c
        · simp only [fetchUrl, hl]
          exact hlog _ _ (hstep st it false hv h)
        · simp only [fetchUrl, hl]
          by_cases hc : c = []
          · rw [if_pos hc]
            exact hstep st it false hv h
          · rw [if_neg hc]
            exact foldl_pres P _
              (fun a b ha => processLineF_pres (fetchAndProcess env tmpl f) P ih hcomment hrule a b ha)
              (splitLines c) _ (hstep st it false hv h)


theorem countNew_le_length (env : Env) (tmpl : UrlTemplate) (visited : List Str) :
    countNew env tmpl visited ≤ env.length := by
  induction env with
  | nil => exact Nat.le_refl 0
  | cons e rest ih =>
    rw [countNew]
    split_ifs <;> simp only [List.length_cons] <;> omega

theorem countNew_mono (env : Env) (tmpl : UrlTemplate) (v1 v2 : List Str)
    (h : ∀ x ∈ v1, x ∈ v2) :
    countNew env tmpl v2 ≤ countNew env tmpl v1 := by
  induction env with
  | nil => exact Nat.le_refl 0
  | cons e rest ih =>
    rw [countNew, countNew]
    have hh : (if e.1 ∈ v2.map (urlOf tmpl) then 0 else 1) ≤
        (if e.1 ∈ v1.map (urlOf tmpl) then 0 else 1) := by
      by_cases h1 : e.1 ∈ v1.map (urlOf tmpl)
      · rcases List.mem_map.mp h1 with ⟨x, hx, hxe⟩
        rw [if_pos h1, if_pos (List.mem_map.mpr ⟨x, h x hx, hxe⟩)]
      · rw [if_neg h1]
        by_cases h2 : e.1 ∈ v2.map (urlOf tmpl) <;> simp [h2]
    omega

theorem urlOf_inj (tmpl : UrlTemplate) (a b : Str) (h : urlOf tmpl a = urlOf tmpl b) :
    a = b := by
  rw [urlOf, urlOf] at h
  exact List.append_cancel_left (List.append_cancel_right h)

theorem countNew_strict (env : Env) (tmpl : UrlTemplate) (it : Str) (visited : List Str)
    (hv : it ∉ visited) :
    ∀ (c : Str), lookupEnv env (urlOf tmpl it) = some c →
      countNew env tmpl (it :: visited) < countNew env tmpl visited := by
  induction env with
  | nil => intro c hc; exact absurd hc (by simp [lookupEnv])
  | cons e rest ih =>
    intro c hc
    rw [countNew, countNew]
    rw [lookupEnv] at hc
    have hmono : countNew rest tmpl (it :: visited) ≤ countNew rest tmpl visited :=
      countNew_mono rest tmpl visited (it :: visited) (fun x hx => List.mem_cons_of_mem _ hx)
    by_cases hk : e.1 = urlOf tmpl it
    · have hold : e.1 ∉ visited.map (urlOf tmpl) := by
        intro hmem
        rcases List.mem_map.mp hmem with ⟨x, hx, hxe⟩
        exact hv (urlOf_inj tmpl x it (by rw [hxe, hk]) ▸ hx)
      have hnew : e.1 ∈ (it :: visited).map (urlOf tmpl) :=
        List.mem_map.mpr ⟨it, List.mem_cons_self _ _, hk.symm⟩
      rw [if_pos hnew, if_neg hold]
      omega
    · rw [if_neg hk] at hc
      have hrec := ih c hc
      have hh : (if e.1 ∈ (it :: visited).map (urlOf tmpl) then 0 else 1) ≤
          (if e.1 ∈ visited.map (urlOf tmpl) then 0 else 1) := by
        by_cases h1 : e.1 ∈ visited.map (urlOf tmpl)
        · rcases List.mem_map.mp h1 with ⟨x, hx, hxe⟩
          rw [if_pos h1, if_pos (List.mem_map.mpr ⟨x, List.mem_cons_of_mem _ hx, hxe⟩)]
        · rw [if_neg h1]
          by_cases h2 : e.1 ∈ (it :: visited).map (urlOf tmpl)
          · rw [if_pos h2]
            omega
          · rw [if_neg h2]
      omega

theorem fap_visited_extend (env : Env) (tmpl : UrlTemplate) (f : Nat) (it : Str)
    (st : PState) :
    ∃ p, (fetchAndProcess env tmpl f it st).visited = p ++ st.visited := by
  refine fap_pres env tmpl (fun s => ∃ p, s.visited = p ++ st.visited) ?_ ?_ ?_ ?_ ?_ f it st ⟨[], rfl⟩
  · intro s l _ hs; exact hs
  · intro s l _ hs; exact hs
  · intro s it' b _ hs
    rcases hs with ⟨p, hp⟩
    exact ⟨it' :: p, by simp [hp]⟩
  · intro s url hs; exact hs
  · intro s hs; exact hs

theorem fap_no_exhaust (env : Env) (tmpl : UrlTemplate) :
    ∀ (f : Nat) (it : Str) (st : PState), st.exhausted = false →
      countNew env tmpl st.visited < f →
      (fetchAndProcess env tmpl f it st).exhausted = false := by
  intro f
  induction f with
  | zero => intro it st _ habs; exact absurd habs (by omega)
  | succ f ih =>
    intro it st hex hcnt
    have hQstep : ∀ (a : PState) (b : Str),
        (a.exhausted = false ∧ countNew env tmpl a.visited < f) →
        ((processLineF (fetchAndProcess env tmpl f) a b).exhausted = false ∧
          countNew env tmpl (processLineF (fetchAndProcess env tmpl f) a b).visited < f) := by
      intro a b ha
      refine processLineF_pres (fetchAndProcess env tmpl f)
        (fun s => s.exhausted = false ∧ countNew env tmpl s.visited < f)
        ?_ ?_ ?_ a b ha
      · intro it' s hs
        refine ⟨ih it' s hs.1 hs.2, ?_⟩
        obtain ⟨p, hp⟩ := fap_visited_extend env tmpl f it' s
        have hm : countNew env tmpl (p ++ s.visited) ≤ countNew env tmpl s.visited :=
          countNew_mono env tmpl s.visited (p ++ s.visited)
            (fun x hx => List.mem_append_right p hx)
        rw [hp]
        omega
      · intro s l _ hs; exact hs
      · intro s l _ hs; exact hs
    simp only [fetchAndProcess]
    dsimp only
    by_cases hv : it ∈ st.visited
    · rw [if_pos hv]
      exact hex
    · rw [if_neg hv]
      by_cases hb : needSep st.out_lines = true
      · simp only [hb, if_true, emitLine]
        rcases hl : lookupEnv env (urlOf tmpl it) with _ | c
        · simp only [fetchUrl, hl]
          exact hex
        · simp only [fetchUrl, hl]
          by_cases hc : c = []
          · rw [if_pos hc]
            exact hex
          · rw [if_neg hc]
            have hstrict := countNew_strict env tmpl it st.visited hv c hl
            refine (foldl_pres
              (fun s => s.exhausted = false ∧ countNew env tmpl s.visited < f)
              (processLineF (fetchAndProcess env tmpl f)) hQstep (splitLines c) _
              ⟨?_, ?_⟩).1
            · exact hex
            · show countNew env tmpl (it :: st.visited) < f
              omega
      · simp only [hb, Bool.false_eq_true, if_false]
        rcases hl : lookupEnv env (urlOf tmpl it) with _ | c
        · simp only [fetchUrl, hl]
          exact hex
        · simp only [fetchUrl, hl]
          by_cases hc : c = []
          · rw [if_pos hc]
            exact hex
          · rw [if_neg hc]
            have hstrict := countNew_strict env tmpl it st.visited hv c hl
            refine (foldl_pres
              (fun s => s.exhausted = false ∧ countNew env tmpl s.visited < f)
              (processLineF (fetchAndProcess env tmpl f)) hQstep (splitLines c) _
              ⟨?_, ?_⟩).1
            · exact hex
            · show countNew env tmpl (it :: st.visited) < f
              omega

theorem fap_fetch_inv (env : Env) (tmpl : UrlTemplate) (f : Nat) (it : Str) (st : PState)
    (h : ((st.fetchLog.map Prod.fst).Nodup ∧ ∀ e ∈ st.fetchLog, e.1 ∈ st.visited)) :
    (((fetchAndProcess env tmpl f it st).fetchLog.map Prod.fst).Nodup ∧
      ∀ e ∈ (fetchAndProcess env tmpl f it st).fetchLog,
        e.1 ∈ (fetchAndProcess env tmpl f it st).visited) := by
  refine fap_pres env tmpl
    (fun s => ((s.fetchLog.map Prod.fst).Nodup ∧ ∀ e ∈ s.fetchLog, e.1 ∈ s.visited))
    ?_ ?_ ?_ ?_ ?_ f it st h
  · intro s l _ hs; exact hs
  · intro s l _ hs; exact hs
  · intro s it' b hv hs
    constructor
    · show ((s.fetchLog ++ [(it', urlOf tmpl it')]).map Prod.fst).Nodup
      rw [List.map_append]
      refine List.Nodup.append hs.1 (List.nodup_singleton _) ?_
      intro x hx hx2
      rcases List.mem_map.mp hx with ⟨e, he, hef⟩
      have hx1 : x = it' := by
        rcases List.mem_map.mp hx2 with ⟨e2, he2, hef2⟩
        rw [← hef2, List.mem_singleton.mp he2]
      exact hv (hx1 ▸ hef ▸ hs.2 e he)
    · intro e he
      rcases List.mem_append.mp he with h1 | h1
      · exact List.mem_cons_of_mem _ (hs.2 e h1)
      · rw [List.mem_singleton.mp h1]
        exact List.mem_cons_self _ _
  · intro s url hs; exact hs
  · intro s hs; exact hs

theorem processLineF_congr (r1 r2 : Str → PState → PState) (st : PState) (raw : Str)
    (h : ∀ inc, r1 inc st = r2 inc st) :
    processLineF r1 st raw = processLineF r2 st raw := by
  rw [processLineF, processLineF]
  dsimp only
  generalize stripWS raw = s0
  generalize inlineStrip s0 = s1
  generalize lowerStr s1 = low
  generalize stripWS (afterColon s1) = v
  generalize (if hasPrefixL (str "full:") low = true then v else s1) = s2
  generalize normalizeDomain s2 = d
  split_ifs <;> first | rfl | exact h v

theorem foldl_congr_pres {α β : Type} (P : α → Prop) (f g : α → β → α)
    (hfg : ∀ a b, P a → f a b = g a b) (hP : ∀ a b, P a → P (f a b)) :
    ∀ (l : List β) (a : α), P a → l.foldl f a = l.foldl g a := by
  intro l
  induction l with
  | nil => intro a _; rfl
  | cons x xs ih =>
    intro a ha
    rw [List.foldl_cons, List.foldl_cons, ← hfg a x ha]
    exact ih (f a x) (hP a x ha)

theorem fap_fuel_stable (env : Env) (tmpl : UrlTemplate) :
    ∀ (f g : Nat) (it : Str) (st : PState),
      countNew env tmpl st.visited < f → countNew env tmpl st.visited < g →
      fetchAndProcess env tmpl f it st = fetchAndProcess env tmpl g it st := by
  intro f
  induction f with
  | zero => intro g it st habs _; exact absurd habs (by omega)
  | succ f ih =>
    intro g it st hf hg
    rcases g with _ | g
    · exact absurd hg (by omega)
    have hQstep : ∀ (a : PState) (b : Str),
        (countNew env tmpl a.visited < f ∧ countNew env tmpl a.visited < g) →
        (countNew env tmpl (processLineF (fetchAndProcess env tmpl f) a b).visited < f ∧
          countNew env tmpl (processLineF (fetchAndProcess env tmpl f) a b).visited < g) := by
      intro a b ha
      refine processLineF_pres (fetchAndProcess env tmpl f)
        (fun s => countNew env tmpl s.visited < f ∧ countNew env tmpl s.visited < g)
        ?_ ?_ ?_ a b ha
      · intro it' s hs
        obtain ⟨p, hp⟩ := fap_visited_extend env tmpl f it' s
        have hm : countNew env tmpl (p ++ s.visited) ≤ countNew env tmpl s.visited :=
          countNew_mono env tmpl s.visited (p ++ s.visited)
            (fun x hx => List.mem_append_right p hx)
        rw [hp]
        omega
      · intro s l _ hs; exact hs
      · intro s l _ hs; exact hs
    have hcongr : ∀ (a : PState) (b : Str),
        (countNew env tmpl a.visited < f ∧ countNew env tmpl a.visited < g) →
        processLineF (fetchAndProcess env tmpl f) a b =
          processLineF (fetchAndProcess env tmpl g) a b := by
      intro a b ha
      exact processLineF_congr _ _ a b (fun inc => ih g inc a ha.1 ha.2)
    simp only [fetchAndProcess]
    dsimp only
    by_cases hv : it ∈ st.visited
    · rw [if_pos hv, if_pos hv]
    · rw [if_neg hv, if_neg hv]
      by_cases hb : needSep st.out_lines = true
      · simp only [hb, if_true, emitLine]
        rcases hl : lookupEnv env (urlOf tmpl it) with _ | c
        · simp only [fetchUrl, hl]
          rfl
        · simp only [fetchUrl, hl]
          by_cases hc : c = []
          · rw [if_pos hc, if_pos hc]
          · rw [if_neg hc, if_neg hc]
            have hstrict := countNew_strict env tmpl it st.visited hv c hl
            refine foldl_congr_pres
              (fun s => countNew env tmpl s.visited < f ∧ countNew env tmpl s.visited < g)
              _ _ hcongr hQstep (splitLines c) _ ⟨?_, ?_⟩
            · show countNew env tmpl (it :: st.visited) < f
              omega
            · show countNew env tmpl (it :: st.visited) < g
              omega
      · simp only [hb, Bool.false_eq_true, if_false]
        rcases hl : lookupEnv env (urlOf tmpl it) with _ | c
        · simp only [fetchUrl, hl]
          rfl
        · simp only [fetchUrl, hl]
          by_cases hc : c = []
          · rw [if_pos hc, if_pos hc]
          · rw [if_neg hc, if_neg hc]
            have hstrict := countNew_strict env tmpl it st.visited hv c hl
            refine foldl_congr_pres
              (fun s => countNew env tmpl s.visited < f ∧ countNew env tmpl s.visited < g)
              _ _ hcongr hQstep (splitLines c) _ ⟨?_, ?_⟩
            · show countNew env tmpl (it :: st.visited) < f
              omega
            · show countNew env tmpl (it :: st.visited) < g
              omega


/-- Claim C1 counterexample: a failing include branch does add a line.  In
both runs the failing middle include contributes one blank separator line
to the output, and when the fetched body is merely empty nothing is
logged, contradicting the claim's assertions that no lines are added for
the branch and that the failure is logged. -/
theorem claim1_cex :
    (processRoot failEnv (str "root")).out_lines =
        [str "||example.com", [], str "||foo.com"] ∧
      (processRoot emptyBodyEnv (str "root2")).out_lines =
        [str "||example.com", [], str "||foo.com"] ∧
      (processRoot emptyBodyEnv (str "root2")).log = [] := by
  refine ⟨by decide, by decide, by decide⟩

/-- Claim C1 (amended): when the fetch for a nested include fails (URL
absent, i.e. a network error or timeout) or returns an empty body, the
resolver marks the name visited, adds no rule or comment line — at most
one blank separator line, appended before the fetch is attempted — leaves
the rule count unchanged, records the fetch, logs a diagnostic for a
network failure (but not for an empty body), and returns normally so
sibling and parent processing continues. -/
theorem claim1_fetch_failure (env : Env) (tmpl : UrlTemplate) (f : Nat) (it : Str)
    (st : PState) (hf : 0 < f) (hv : it ∉ st.visited)
    (hfail : lookupEnv env (urlOf tmpl it) = none ∨
      lookupEnv env (urlOf tmpl it) = some []) :
    (fetchAndProcess env tmpl f it st).rule_count = st.rule_count ∧
      ((fetchAndProcess env tmpl f it st).out_lines = st.out_lines ∨
        (fetchAndProcess env tmpl f it st).out_lines = st.out_lines ++ [[]]) ∧
      (fetchAndProcess env tmpl f it st).visited = it :: st.visited ∧
      (fetchAndProcess env tmpl f it st).fetchLog =
        st.fetchLog ++ [(it, urlOf tmpl it)] ∧
      (lookupEnv env (urlOf tmpl it) = none →
        (fetchAndProcess env tmpl f it st).log =
          st.log ++ [fetchFailMsg (urlOf tmpl it)]) ∧
      (lookupEnv env (urlOf tmpl it) = some [] →
        (fetchAndProcess env tmpl f it st).log = st.log) := by
  rcases f with _ | f
  · exact absurd hf (by omega)
  simp only [fetchAndProcess]
  dsimp only
  rw [if_neg hv]
  by_cases hb : needSep st.out_lines = true
  · simp only [hb, if_true, emitLine]
    rcases hfail with hl | hl
    · simp only [fetchUrl, hl]
      exact ⟨rfl, Or.inr rfl, rfl, rfl, fun _ => rfl,
        fun h => Option.noConfusion h⟩
    · simp only [fetchUrl, hl]
      exact ⟨rfl, Or.inr rfl, rfl, rfl,
        fun h => Option.noConfusion h, fun _ => rfl⟩
  · simp only [hb, Bool.false_eq_true, if_false]
    rcases hfail with hl | hl
    · simp only [fetchUrl, hl]
      exact ⟨rfl, Or.inl rfl, rfl, rfl, fun _ => rfl,
        fun h => Option.noConfusion h⟩
    · simp only [fetchUrl, hl]
      exact ⟨rfl, Or.inl rfl, rfl, rfl,
        fun h => Option.noConfusion h, fun _ => rfl⟩

/-- Claim C1 witness: the amended theorem instantiated at an empty network
and a fresh processor state. -/
theorem claim1_witness :
    0 < 1 ∧ (str "x") ∉ initState.visited ∧
      (lookupEnv [] (urlOf communityTemplate (str "x")) = none ∨
        lookupEnv [] (urlOf communityTemplate (str "x")) = some []) ∧
      ((fetchAndProcess [] communityTemplate 1 (str "x") initState).rule_count =
          initState.rule_count ∧
        ((fetchAndProcess [] communityTemplate 1 (str "x") initState).out_lines =
            initState.out_lines ∨
          (fetchAndProcess [] communityTemplate 1 (str "x") initState).out_lines =
            initState.out_lines ++ [[]]) ∧
        (fetchAndProcess [] communityTemplate 1 (str "x") initState).visited =
          (str "x") :: initState.visited ∧
        (fetchAndProcess [] communityTemplate 1 (str "x") initState).fetchLog =
          initState.fetchLog ++ [((str "x"), urlOf communityTemplate (str "x"))] ∧
        (lookupEnv [] (urlOf communityTemplate (str "x")) = none →
          (fetchAndProcess [] communityTemplate 1 (str "x") initState).log =
            initState.log ++ [fetchFailMsg (urlOf communityTemplate (str "x"))]) ∧
        (lookupEnv [] (urlOf communityTemplate (str "x")) = some [] →
          (fetchAndProcess [] communityTemplate 1 (str "x") initState).log =
            initState.log)) :=
  ⟨by decide, by decide, Or.inl rfl,
    claim1_fetch_failure [] communityTemplate 1 (str "x") initState (by decide) (by decide)
      (Or.inl rfl)⟩


/-- Claim C3: for every environment and root, one `process()` run
terminates (the fuel bound is never hit: `exhausted` stays false), no
name is ever fetched twice (the fetch log names are nodup — guaranteed by
marking a name visited strictly before fetching it), and every fetched
name is in the visited set; on the spec's cycle graph A→B→A each of A and
B is fetched exactly once, and on the dedup graph where A references B
both directly and through C, B is fetched exactly once. -/
theorem claim3_termination_single_fetch :
    (∀ (env : Env) (root : Str), (processRoot env root).exhausted = false) ∧
      (∀ (env : Env) (root : Str),
        ((processRoot env root).fetchLog.map Prod.fst).Nodup) ∧
      (∀ (env : Env) (root : Str), ∀ e ∈ (processRoot env root).fetchLog,
        e.1 ∈ (processRoot env root).visited) ∧
      (processRoot cycleEnv (str "A")).fetchLog.map Prod.fst = [str "A", str "B"] ∧
      (processRoot dedupEnv (str "A")).fetchLog.map Prod.fst =
        [str "A", str "B", str "C"] := by
  refine ⟨?_, ?_, ?_, by decide, by decide⟩
  · intro env root
    refine fap_no_exhaust env (templateFor root) (env.length + 1) root initState rfl ?_
    have h := countNew_le_length env (templateFor root) []
    show countNew env (templateFor root) [] < env.length + 1
    omega
  · intro env root
    exact (fap_fetch_inv env (templateFor root) (env.length + 1) root initState
      ⟨List.nodup_nil, fun e he => absurd he (List.not_mem_nil e)⟩).1
  · intro env root
    exact (fap_fetch_inv env (templateFor root) (env.length + 1) root initState
      ⟨List.nodup_nil, fun e he => absurd he (List.not_mem_nil e)⟩).2

/-- Claim C3 witness: the fetched-implies-visited part instantiated on the
cycle environment. -/
theorem claim3_witness :
    ((str "A", urlOf communityTemplate (str "A")) ∈
        (processRoot cycleEnv (str "A")).fetchLog) ∧
      (str "A") ∈ (processRoot cycleEnv (str "A")).visited :=
  ⟨by decide,
    claim3_termination_single_fetch.2.2.1 cycleEnv (str "A")
      (str "A", urlOf communityTemplate (str "A")) (by decide)⟩


theorem fap_count_mono (env : Env) (tmpl : UrlTemplate) (f : Nat) (it : Str)
    (st : PState) :
    st.rule_count ≤ (fetchAndProcess env tmpl f it st).rule_count := by
  refine fap_pres env tmpl (fun s => st.rule_count ≤ s.rule_count)
    ?_ ?_ ?_ ?_ ?_ f it st (Nat.le_refl _)
  · intro s l _ hs; exact hs
  · intro s l _ hs; exact Nat.le_succ_of_le hs
  · intro s it' b _ hs; exact hs
  · intro s url hs; exact hs
  · intro s hs; exact hs

theorem processLine_count_mono (env : Env) (tmpl : UrlTemplate) (f : Nat) (st : PState)
    (raw : Str) :
    st.rule_count ≤ (processLineF (fetchAndProcess env tmpl f) st raw).rule_count := by
  refine processLineF_pres (fetchAndProcess env tmpl f)
    (fun s => st.rule_count ≤ s.rule_count) ?_ ?_ ?_ st raw (Nat.le_refl _)
  · intro it' s hs
    exact Nat.le_trans hs (fap_count_mono env tmpl f it' s)
  · intro s l _ hs; exact hs
  · intro s l _ hs; exact Nat.le_succ_of_le hs

theorem notRule_of_blank_or_comment (l : Str) (h : l = [] ∨ l.head? = some '!') :
    isRuleLine l = false := by
  rcases h with h | h
  · rw [h]; rfl
  · rw [isRuleLine, h]
    simp

theorem rule_of_nonblank (l : Str) (h : l ≠ [] ∧ l.head? ≠ some '!') :
    isRuleLine l = true := by
  rcases l with _ | ⟨c, t⟩
  · exact absurd rfl h.1
  · have hc : ¬(c = '!') := fun hx => h.2 (by rw [List.head?_cons, hx])
    simp [isRuleLine, hc]

theorem count_filter_inv_pres (env : Env) (tmpl : UrlTemplate) (f : Nat) (it : Str)
    (st : PState) (h : st.rule_count = (st.out_lines.filter isRuleLine).length) :
    (fetchAndProcess env tmpl f it st).rule_count =
      ((fetchAndProcess env tmpl f it st).out_lines.filter isRuleLine).length := by
  refine fap_pres env tmpl
    (fun s => s.rule_count = (s.out_lines.filter isRuleLine).length)
    ?_ ?_ ?_ ?_ ?_ f it st h
  · intro s l hl hs
    show s.rule_count = ((s.out_lines ++ [l]).filter isRuleLine).length
    rw [List.filter_append, List.filter_cons, notRule_of_blank_or_comment l hl]
    simpa using hs
  · intro s l hl hs
    show s.rule_count + 1 = ((s.out_lines ++ [l]).filter isRuleLine).length
    rw [List.filter_append, List.filter_cons, rule_of_nonblank l hl]
    simp [hs]
  · intro s it' b _ hs
    rcases b with _ | _
    · exact hs
    · show s.rule_count = ((s.out_lines ++ [[]]).filter isRuleLine).length
      rw [List.filter_append, List.filter_cons]
      simpa using hs
  · intro s url hs; exact hs
  · intro s hs; exact hs

/-- Claim C8: the rule count is monotonically non-decreasing under every
resolver call and every classified line, and after processing any
sequence of lines (and after a whole `process()` run) it equals the
number of emitted lines that are effective match rules — non-blank lines
not starting with `!` (domain rules, exact rules and regex rules);
equivalently every other accumulated line is blank or starts with `!`. -/
theorem claim8_rule_count_invariant :
    (∀ (env : Env) (tmpl : UrlTemplate) (f : Nat) (it : Str) (st : PState),
        st.rule_count ≤ (fetchAndProcess env tmpl f it st).rule_count) ∧
      (∀ (env : Env) (tmpl : UrlTemplate) (f : Nat) (st : PState) (raw : Str),
        st.rule_count ≤ (processLineF (fetchAndProcess env tmpl f) st raw).rule_count) ∧
      (∀ (env : Env) (tmpl : UrlTemplate) (f : Nat) (lines : List Str) (st : PState),
        st.rule_count = (st.out_lines.filter isRuleLine).length →
        (lines.foldl (processLineF (fetchAndProcess env tmpl f)) st).rule_count =
          ((lines.foldl (processLineF (fetchAndProcess env tmpl f)) st).out_lines.filter
            isRuleLine).length) ∧
      (∀ (env : Env) (root : Str),
        (processRoot env root).rule_count =
          ((processRoot env root).out_lines.filter isRuleLine).length) := by
  refine ⟨fap_count_mono, processLine_count_mono, ?_, ?_⟩
  · intro env tmpl f lines st h
    refine foldl_pres (fun s => s.rule_count = (s.out_lines.filter isRuleLine).length)
      (processLineF (fetchAndProcess env tmpl f)) ?_ lines st h
    intro a b ha
    refine processLineF_pres (fetchAndProcess env tmpl f)
      (fun s => s.rule_count = (s.out_lines.filter isRuleLine).length) ?_ ?_ ?_ a b ha
    · intro it' s hs
      exact count_filter_inv_pres env tmpl f it' s hs
    · intro s l hl hs
      show s.rule_count = ((s.out_lines ++ [l]).filter isRuleLine).length
      rw [List.filter_append, List.filter_cons, notRule_of_blank_or_comment l hl]
      simpa using hs
    · intro s l hl hs
      show s.rule_count + 1 = ((s.out_lines ++ [l]).filter isRuleLine).length
      rw [List.filter_append, List.filter_cons, rule_of_nonblank l hl]
      simp [hs]
  · intro env root
    exact count_filter_inv_pres env (templateFor root) (env.length + 1) root initState rfl

/-- Claim C8 witness: the any-sequence-of-lines invariant instantiated on a
concrete three-line sequence from the fresh state. -/
theorem claim8_witness :
    initState.rule_count = (initState.out_lines.filter isRuleLine).length ∧
      (([str "example.com", str "# c", str ""].foldl
          (processLineF (fetchAndProcess [] communityTemplate 0)) initState).rule_count =
        (([str "example.com", str "# c", str ""].foldl
          (processLineF (fetchAndProcess [] communityTemplate 0))
            initState).out_lines.filter isRuleLine).length) :=
  ⟨rfl, claim8_rule_count_invariant.2.2.1 [] communityTemplate 0
    [str "example.com", str "# c", str ""] initState rfl⟩

theorem fap_url_shape (env : Env) (tmpl : UrlTemplate) (f : Nat) (it : Str) (st : PState)
    (h : ∀ e ∈ st.fetchLog, e.2 = urlOf tmpl e.1) :
    ∀ e ∈ (fetchAndProcess env tmpl f it st).fetchLog, e.2 = urlOf tmpl e.1 := by
  refine fap_pres env tmpl (fun s => ∀ e ∈ s.fetchLog, e.2 = urlOf tmpl e.1)
    ?_ ?_ ?_ ?_ ?_ f it st h
  · intro s l _ hs; exact hs
  · intro s l _ hs; exact hs
  · intro s it' b _ hs
    intro e he
    rcases List.mem_append.mp he with h1 | h1
    · exact hs e h1
    · rw [List.mem_singleton.mp h1]
  · intro s url hs; exact hs
  · intro s hs; exact hs


/-- Claim C9: the URL template is selected exactly once at construction by
the root item's membership in the fixed curated set `KNOWN`, and every
fetch of the whole run — including fetches of transitively included
names — substitutes the fetched name into that same root template; in
particular a curated name included from a non-curated root is fetched
from the community template, not independently classified. -/
theorem claim9_template_selection :
    (∀ (root : Str), templateFor root =
        if root ∈ KNOWN then curatedTemplate else communityTemplate) ∧
      (∀ (env : Env) (root : Str), ∀ e ∈ (processRoot env root).fetchLog,
        e.2 = urlOf (templateFor root) e.1) ∧
      ((str "gfw") ∈ KNOWN ∧ (str "myroot") ∉ KNOWN ∧
        (processRoot mixEnv (str "myroot")).fetchLog =
          [(str "myroot", urlOf communityTemplate (str "myroot")),
           (str "gfw", urlOf communityTemplate (str "gfw"))] ∧
        urlOf communityTemplate (str "gfw") ≠ urlOf curatedTemplate (str "gfw")) := by
  refine ⟨fun root => rfl, ?_, by decide, by decide, by decide, by decide⟩
  intro env root
  exact fap_url_shape env (templateFor root) (env.length + 1) root initState
    (fun e he => absurd he (List.not_mem_nil e))

/-- Claim C9 witness: the all-fetches-use-the-root-template part
instantiated on the mixed environment at the included curated name. -/
theorem claim9_witness :
    ((str "gfw", urlOf communityTemplate (str "gfw")) ∈
        (processRoot mixEnv (str "myroot")).fetchLog) ∧
      (str "gfw", urlOf communityTemplate (str "gfw")).2 =
        urlOf (templateFor (str "myroot")) (str "gfw", urlOf communityTemplate (str "gfw")).1 :=
  ⟨by decide,
    claim9_template_selection.2.1 mixEnv (str "myroot")
      (str "gfw", urlOf communityTemplate (str "gfw")) (by decide)⟩

/-- Claim C10: with fetching modelled as a fixed map from URL to content,
`process()` is deterministic — the resulting state is a function of the
root name and the fetch environment alone.  In the embedding the only
further parameter is the fuel, and the result is independent of it for
every sufficient fuel, so two runs from identically constructed resolvers
produce identical output lines and rule counts. -/
theorem claim10_deterministic (env : Env) (root : Str) (f1 f2 : Nat)
    (h1 : env.length < f1) (h2 : env.length < f2) :
    fetchAndProcess env (templateFor root) f1 root initState =
      fetchAndProcess env (templateFor root) f2 root initState := by
  have hc := countNew_le_length env (templateFor root) []
  refine fap_fuel_stable env (templateFor root) f1 f2 root initState ?_ ?_
  · show countNew env (templateFor root) [] < f1
    omega
  · show countNew env (templateFor root) [] < f2
    omega

/-- Claim C10 witness: two runs of the cycle environment with different
sufficient fuels produce identical results. -/
theorem claim10_witness :
    (cycleEnv.length < 3 ∧ cycleEnv.length < 17) ∧
      fetchAndProcess cycleEnv (templateFor (str "A")) 3 (str "A") initState =
        fetchAndProcess cycleEnv (templateFor (str "A")) 17 (str "A") initState :=
  ⟨⟨by decide, by decide⟩,
    claim10_deterministic cycleEnv (str "A") 3 17 (by decide) (by decide)⟩

/-- Claim C2 witness: the amended theorem instantiated on the spec's own
inline-comment example line. -/
theorem claim2_witness :
    stripWS (str "example.com@ads") = str "example.com@ads" ∧
      str "example.com@ads" ≠ [] ∧
      hasPrefixL (str "#") (str "example.com@ads") = false ∧
      hasPrefixL (str "//") (str "example.com@ads") = false ∧
      hasPrefixL (str "!") (str "example.com@ads") = false ∧
      ((inlineStrip (str "example.com@ads") = [] →
          processLineF (fetchAndProcess [] communityTemplate 0) initState
            (str "example.com@ads") = initState) ∧
        (inlineStrip (str "example.com@ads") ≠ [] →
          processLineF (fetchAndProcess [] communityTemplate 0) initState
              (str "example.com@ads") =
            processLineF (fetchAndProcess [] communityTemplate 0) initState
              (inlineStrip (str "example.com@ads")))) :=
  ⟨by decide, by decide, by decide, by decide, by decide,
    claim2_inline_comment (fetchAndProcess [] communityTemplate 0) initState
      (str "example.com@ads") (by decide) (by decide) (by decide) (by decide) (by decide)⟩

/-- Claim C7 witness: the directive theorem instantiated on an upper-case
full directive whose value has mixed case. -/
theorem claim7_witness :
    stripWS (str "FULL:ExAmple.com") = str "FULL:ExAmple.com" ∧
      str "FULL:ExAmple.com" ≠ [] ∧
      inlineStrip (str "FULL:ExAmple.com") = str "FULL:ExAmple.com" ∧
      ((hasPrefixL (str "include:") (lowerStr (str "FULL:ExAmple.com")) = true →
          processLineF (fetchAndProcess [] communityTemplate 0) initState
              (str "FULL:ExAmple.com") =
            (if stripWS ((str "FULL:ExAmple.com").drop 8) = [] then initState
              else fetchAndProcess [] communityTemplate 0
                (stripWS ((str "FULL:ExAmple.com").drop 8)) initState)) ∧
        (hasPrefixL (str "regexp:") (lowerStr (str "FULL:ExAmple.com")) = true →
          processLineF (fetchAndProcess [] communityTemplate 0) initState
              (str "FULL:ExAmple.com") =
            (if stripWS ((str "FULL:ExAmple.com").drop 7) = [] then initState
              else emitRule ('/' ::
                (convertGoRegexToJs (stripWS ((str "FULL:ExAmple.com").drop 7)) ++ ['/']))
                initState)) ∧
        (hasPrefixL (str "full:") (lowerStr (str "FULL:ExAmple.com")) = true →
          processLineF (fetchAndProcess [] communityTemplate 0) initState
              (str "FULL:ExAmple.com") =
            (if stripWS ((str "FULL:ExAmple.com").drop 5) = [] then initState
              else if normalizeDomain (stripWS ((str "FULL:ExAmple.com").drop 5)) = []
                then initState
              else emitRule
                ('|' :: normalizeDomain (stripWS ((str "FULL:ExAmple.com").drop 5)))
                initState))) :=
  ⟨by decide, by decide, by decide,
    claim7_directive_case (fetchAndProcess [] communityTemplate 0) initState
      (str "FULL:ExAmple.com") (by decide) (by decide) (by decide)⟩
